import Mathlib

/-!
Verification of the certificate-automation pipeline (automation.py, rename.py).

Strings are modelled as `List Char` over the ASCII fragment of Python `str`
(`unidecode` is modelled as the identity on ASCII code points, which is what it
is on ASCII; its transliteration table for non-ASCII points is elided by
dropping such points).  Regular expressions from the source are translated into
executable recursive scanners that reproduce the scan order, alternation order
and greediness of Python's `re` engine on the patterns actually used.
Similarity scores are exact rationals; Python computes them as floats, but on
the short strings involved the float comparisons against the 0.6/0.7 thresholds
agree with the exact rational comparisons (the nearest rational with such a
small denominator is far further from the threshold than one double ulp).
-/

set_option maxRecDepth 10000
set_option maxHeartbeats 2000000

/-- Abbreviation: a Python string, modelled as its list of characters. -/
abbrev Str := List Char

/-- Convert a Lean string literal to the model type. -/
def S (s : String) : Str := s.toList

/-- Python `\s` on ASCII: space, tab, newline, carriage return, vertical tab, form feed. -/
def isWS (c : Char) : Bool :=
  c = ' ' || c = '\t' || c = '\n' || c = '\x0d' || c = '\x0b' || c = '\x0c'

/-- Lowercase ASCII letter. -/
def isLowerAZ (c : Char) : Bool := 'a' ≤ c && c ≤ 'z'

/-- Uppercase ASCII letter. -/
def isUpperAZ (c : Char) : Bool := 'A' ≤ c && c ≤ 'Z'

/-- ASCII letter (models Python `str.isalpha` on the ASCII fragment). -/
def isAlphaPy (c : Char) : Bool := isLowerAZ c || isUpperAZ c

/-- ASCII digit. -/
def isDigitPy (c : Char) : Bool := '0' ≤ c && c ≤ '9'

/-- Python regex `\w` (word character) on the ASCII fragment: letter, digit or underscore. -/
def isWordChar (c : Char) : Bool := isAlphaPy c || isDigitPy c || c = '_'

/-- ASCII lowercasing of one character (Python `str.lower` on ASCII). -/
def asciiLower (c : Char) : Char :=
  if isUpperAZ c then Char.ofNat (c.toNat + 32) else c

/-- Python `str.lower()` on the ASCII fragment. -/
def lowerStr (s : Str) : Str := s.map asciiLower

/-- Python `str.strip()`: drop whitespace from both ends. -/
def pythonStrip (s : Str) : Str :=
  ((s.dropWhile isWS).reverse.dropWhile isWS).reverse

/-- Model of `unidecode` restricted to ASCII: identity on code points below 128
(the real library transliterates higher points to ASCII; that table is elided). -/
def unidec (s : Str) : Str := s.filter (fun c => c.toNat < 128)

/-- The honorific/suffix alternation of `normalize_name`
(automation.py line 59), in the source's alternation order. -/
def titles : List Str :=
  [S "mr", S "mrs", S "ms", S "miss", S "dr", S "prof", S "sir", S "dame",
   S "jr", S "sr", S "ii", S "iii", S "iv", S "v", S "phd", S "md", S "dds", S "dvm"]

/-- Does the regex `\b(title)\b\.?\s*` match here (position given by `s`, which
must start with the title)?  Returns the remaining input after the match and
whether the character preceding the next scan position is a non-word character
(needed to decide the `\b` at the next match attempt).  Alternatives are tried
in the pattern's order; the trailing `\b` requires a non-word character or end
of input after the alternative. -/
def matchTitleAt (s : Str) : Option (Str × Bool) :=
  match titles.findSome? (fun t =>
      if t.isPrefixOf s && (match s.drop t.length with
                            | [] => true
                            | c :: _ => !isWordChar c) then
        some t.length
      else none) with
  | none => none
  | some len =>
    let r1 := s.drop len
    match r1 with
    | '.' :: tl => some (tl.dropWhile isWS, true)
    | _ => let r3 := r1.dropWhile isWS
           some (r3, decide (r3.length ≠ r1.length))

/-- One left-to-right pass of `re.sub(r'\b(titles)\b\.?\s*', '', name)`:
`bdry` records whether the previous character (if any) was a non-word
character, i.e. whether a `\b` can hold before the current position.  `fuel`
bounds the recursion; a fuel of `s.length` is always sufficient because every
step consumes at least one character. -/
def stripTitlesAux : Nat → Bool → Str → Str
  | 0, _, s => s
  | Nat.succ fuel, bdry, s =>
    match s with
    | [] => []
    | c :: cs =>
      if bdry then
        match matchTitleAt s with
        | some (rest, b) => stripTitlesAux fuel b rest
        | none => c :: stripTitlesAux fuel (!isWordChar c) cs
      else c :: stripTitlesAux fuel (!isWordChar c) cs

/-- `re.sub(r'\b(mr|mrs|...)\b\.?\s*', '', name)` (automation.py line 59). -/
def stripTitles (s : Str) : Str := stripTitlesAux s.length true s

/-- `re.sub(r'\s+', ' ', name)`: collapse every whitespace run to a single
space.  `prev` records whether the previous character was whitespace (i.e.
whether we are inside a run already replaced). -/
def squeezeAux : Bool → Str → Str
  | _, [] => []
  | prev, c :: cs =>
    if isWS c then
      if prev then squeezeAux true cs else ' ' :: squeezeAux true cs
    else c :: squeezeAux false cs

/-- `re.sub(r'\s+', ' ', name)` (automation.py line 63). -/
def squeezeWS (s : Str) : Str := squeezeAux false s

/-- `normalize_name` (automation.py lines 52-64): strip, transliterate+lower,
remove honorifics/suffixes, keep only lowercase letters and whitespace,
collapse whitespace, strip. -/
def normalize_name (name : Str) : Str :=
  let s1 := pythonStrip name
  let s2 := lowerStr (unidec s1)
  let s3 := stripTitles s2
  let s4 := s3.filter (fun c => isLowerAZ c || isWS c)
  pythonStrip (squeezeWS s4)

/-- Replace every occurrence of the literal pattern `pat` (nonempty) by `rep`,
scanning left to right and not rescanning the replacement — the behaviour of
`re.sub` on a literal pattern.  `fuel` bounds the recursion; `s.length`
suffices. -/
def replaceLitAux (pat rep : Str) : Nat → Str → Str
  | 0, s => s
  | Nat.succ fuel, s =>
    match s with
    | [] => []
    | c :: cs =>
      if pat ≠ [] && pat.isPrefixOf s then
        rep ++ replaceLitAux pat rep fuel (s.drop pat.length)
      else c :: replaceLitAux pat rep fuel cs

/-- `re.sub` of a literal pattern. -/
def replaceLit (pat rep s : Str) : Str := replaceLitAux pat rep s.length s

/-- Replace every occurrence of `w1` `\s+` `w2` by `rep` (the
`yahoo\s+com`-style corrections of `clean_email`).  `fuel = s.length`
suffices. -/
def replaceWsPatAux (w1 w2 rep : Str) : Nat → Str → Str
  | 0, s => s
  | Nat.succ fuel, s =>
    match s with
    | [] => []
    | c :: cs =>
      if w1 ≠ [] && w1.isPrefixOf s then
        let r1 := s.drop w1.length
        let r2 := r1.dropWhile isWS
        if r1.length ≠ r2.length && w2.isPrefixOf r2 then
          rep ++ replaceWsPatAux w1 w2 rep fuel (r2.drop w2.length)
        else c :: replaceWsPatAux w1 w2 rep fuel cs
      else c :: replaceWsPatAux w1 w2 rep fuel cs

/-- `re.sub` of a `word1\s+word2` pattern. -/
def replaceWsPat (w1 w2 rep s : Str) : Str := replaceWsPatAux w1 w2 rep s.length s

/-- Character class `[a-zA-Z0-9._%+-]` of the email regex. -/
def isLocalChar (c : Char) : Bool :=
  isAlphaPy c || isDigitPy c || c = '.' || c = '_' || c = '%' || c = '+' || c = '-'

/-- Character class `[a-zA-Z0-9.-]` of the email regex. -/
def isDomainChar (c : Char) : Bool :=
  isAlphaPy c || isDigitPy c || c = '.' || c = '-'

/-- Match of `^[a-zA-Z0-9._%+-]+@[a-zA-Z0-9.-]+\.[a-zA-Z]{2,}$` against `e`:
since `@` belongs to no character class of the pattern, a match is exactly a
decomposition `local ++ "@" ++ domain ++ "." ++ tld` with nonempty `local` and
`domain` in their classes and an alphabetic `tld` of length at least 2. -/
def emailRegexMatch (e : Str) : Bool :=
  match e.findIdx? (fun c => c = '@') with
  | none => false
  | some i =>
    let lo := e.take i
    let rest := e.drop (i + 1)
    lo ≠ [] && lo.all isLocalChar && rest.all (fun c => c ≠ '@') &&
      (List.range rest.length).any (fun j =>
        rest.get? j = some '.' && j ≥ 1 &&
          (rest.take j).all isDomainChar &&
          (rest.drop (j + 1)).all isAlphaPy && rest.length - (j + 1) ≥ 2)

/-- `is_valid_email` (automation.py lines 66-72). -/
def is_valid_email (email : Str) : Bool :=
  emailRegexMatch (lowerStr (pythonStrip email))

/-- `clean_email` (automation.py lines 74-92): strip+lower, delete whitespace,
apply the fixed typo-correction table in its order, return the result if it
then validates and the empty string otherwise. -/
def clean_email (email : Str) : Str :=
  let e0 := lowerStr (pythonStrip email)
  let e1 := e0.filter (fun c => !isWS c)
  let e2 := replaceLit (S "gmsil.com") (S "gmail.com") e1
  let e3 := replaceLit (S "gnail.com") (S "gmail.com") e2
  let e4 := replaceLit (S "@gmail,com") (S "@gmail.com") e3
  let e5 := replaceLit (S "@yahoo,com") (S "@yahoo.com") e4
  let e6 := replaceLit (S "@outlook,com") (S "@outlook.com") e5
  let e7 := replaceWsPat (S "yahoo") (S "com") (S "yahoo.com") e6
  let e8 := replaceWsPat (S "hotmail") (S "com") (S "hotmail.com") e7
  let e9 := replaceWsPat (S "outlook") (S "com") (S "outlook.com") e8
  if is_valid_email e9 then e9 else []

/-- Lookup in a small `Nat → Nat` association lists (the `j2len` dictionaries of
`difflib.SequenceMatcher.find_longest_match`). -/
def lookupNat : List (Nat × Nat) → Nat → Option Nat
  | [], _ => none
  | (k, v) :: t, q => if q = k then some v else lookupNat t q

/-- `b2j`: ascending positions of character `c` in `b` (no junk: the strings
involved are far below difflib's 200-character autojunk threshold). -/
def b2j (b : Str) (c : Char) : List Nat :=
  (List.range b.length).filter (fun j => b.get? j = some c)

/-- `difflib.SequenceMatcher.find_longest_match` over the whole of `a` and `b`
(no junk): returns `(besti, bestj, bestsize)`.  The dynamic program carries
`j2len` (diagonal run lengths ending at each `j` for the previous `i`) and
updates the best block only on a strictly larger size, so the first longest
block in (i, j)-scan order wins, as in the source. -/
def findLongestMatch (a b : Str) : Nat × Nat × Nat :=
  (a.enum.foldl
    (fun (st : List (Nat × Nat) × (Nat × Nat × Nat)) (ic : Nat × Char) =>
      let j2len := st.1
      let inner := (b2j b ic.2).foldl
        (fun (st2 : List (Nat × Nat) × (Nat × Nat × Nat)) (j : Nat) =>
          let k := if j = 0 then 1 else (lookupNat j2len (j - 1)).getD 0 + 1
          let best := st2.2
          let best' := if k > best.2.2 then (ic.1 + 1 - k, j + 1 - k, k) else best
          ((j, k) :: st2.1, best'))
        ([], st.2)
      inner)
    ([], (0, 0, 0))).2

/-- Total size of the matching blocks of `get_matching_blocks` (the `matches`
quantity of `ratio`): recursively split around the longest match.  `fuel`
bounds the recursion; `a.length + b.length` suffices, since each recursive
call strictly decreases that sum (the longest match is nonempty and lies
within bounds), and a subproblem reached with fuel 0 is always empty. -/
def matchingSizeAux : Nat → Str → Str → Nat
  | 0, _, _ => 0
  | Nat.succ fuel, a, b =>
    match findLongestMatch a b with
    | (i, j, k) =>
      if k = 0 then 0
      else matchingSizeAux fuel (a.take i) (b.take j) + k +
           matchingSizeAux fuel (a.drop (i + k)) (b.drop (j + k))

/-- Sum of the sizes of the matching blocks of `a` and `b`. -/
def matchingSize (a b : Str) : Nat := matchingSizeAux (a.length + b.length) a b

/-- `difflib._calculate_ratio`: `2*matches/length`, and 1 when both sequences
are empty. -/
def calcRatio (mtc total : Nat) : ℚ :=
  if total = 0 then 1 else (2 * mtc : ℚ) / (total : ℚ)

/-- `SequenceMatcher(None, a, b).ratio()` as an exact rational. -/
def sm_ratio (a b : Str) : ℚ := calcRatio (matchingSize a b) (a.length + b.length)

/-- `SequenceMatcher.quick_ratio`: multiset intersection of the characters. -/
def sm_quick_ratio (a b : Str) : ℚ :=
  calcRatio (a.dedup.foldl (fun acc c => acc + min (a.count c) (b.count c)) 0)
    (a.length + b.length)

/-- `SequenceMatcher.real_quick_ratio`. -/
def sm_real_quick_ratio (a b : Str) : ℚ :=
  calcRatio (min a.length b.length) (a.length + b.length)

/-- Python string comparison `s < t` (lexicographic on code points). -/
def strLtB : Str → Str → Bool
  | [], [] => false
  | [], _ :: _ => true
  | _ :: _, [] => false
  | a :: s, b :: t => a < b || (a = b && strLtB s t)

/-- `difflib.get_close_matches(word, possibilities, n=1, cutoff)`: keep the
possibilities whose three ratios against `word` (candidate as `seq1`, `word`
as `seq2`) all reach the cutoff, then `heapq.nlargest(1, ...)` on the
`(score, candidate)` pairs — the maximum under the lexicographic pair order,
ties in score resolved toward the larger string, equal pairs toward the first
occurrence.  Returns the single best candidate, if any. -/
def get_close_matches1 (word : Str) (poss : List Str) (cutoff : ℚ) : Option Str :=
  let scored := poss.filterMap (fun x =>
    if sm_real_quick_ratio x word ≥ cutoff && sm_quick_ratio x word ≥ cutoff &&
       sm_ratio x word ≥ cutoff then
      some (sm_ratio x word, x)
    else none)
  (scored.foldl
    (fun (acc : Option (ℚ × Str)) (p : ℚ × Str) =>
      match acc with
      | none => some p
      | some q => if p.1 > q.1 || (p.1 = q.1 && strLtB q.2 p.2) then some p else some q)
    none).map Prod.snd

/-- `fuzzy_match` (automation.py lines 122-125). -/
def fuzzy_match (name : Str) (cert_keys : List Str) (threshold : ℚ) : Option Str :=
  get_close_matches1 name cert_keys threshold

/-- Python `str.split()` (no separator): whitespace-separated tokens, no
empties.  `fuel = s.length` suffices. -/
def splitWSAux : Nat → Str → List Str
  | 0, _ => []
  | Nat.succ fuel, s =>
    match s with
    | [] => []
    | c :: cs =>
      if isWS c then splitWSAux fuel cs
      else (c :: cs.takeWhile (fun d => !isWS d)) ::
           splitWSAux fuel (cs.dropWhile (fun d => !isWS d))

/-- Python `str.split()`. -/
def splitWS (s : Str) : List Str := splitWSAux s.length s

/-- Python substring test `sub in hay`. -/
def substrB (hay sub : Str) : Bool :=
  (List.range (hay.length + 1)).any (fun i => sub.isPrefixOf (hay.drop i))

/-- An insertion-order-preserving key-value map, as built by a Python `dict`:
inserting an existing key overwrites its value in place, a new key is appended. -/
abbrev KV := List (Str × Str)

/-- `dict` lookup. -/
def lookupKV : KV → Str → Option Str
  | [], _ => none
  | (k, v) :: t, q => if q = k then some v else lookupKV t q

/-- `dict` insertion (`certs[norm_key] = filename`). -/
def insertKV : KV → Str → Str → KV
  | [], k, v => [(k, v)]
  | (k0, v0) :: t, k, v =>
    if k0 = k then (k0, v) :: t else (k0, v0) :: insertKV t k v

/-- `os.path.splitext(p)[0]` for a plain filename (no path separators): split
off the extension at the last dot, unless every character before that dot is
itself a dot. -/
def splitextBase (p : Str) : Str :=
  match (p.reverse.findIdx? (fun c => c = '.')) with
  | none => p
  | some rj =>
    let d := p.length - 1 - rj
    if (p.take d).any (fun c => c ≠ '.') then p.take d else p

/-- `re.sub(r'^certificate[_\-\s]*', '', base, flags=re.IGNORECASE)`. -/
def stripCertTok (s : Str) : Str :=
  if (S "certificate").isPrefixOf (lowerStr s) then
    (s.drop 11).dropWhile (fun c => c = '_' || c = '-' || isWS c)
  else s

/-- `re.sub(r'_pg\d+$', '', s)`: remove a trailing `_pg` page-number suffix. -/
def stripPgSuffix (s : Str) : Str :=
  let r := s.reverse
  let ds := r.takeWhile isDigitPy
  if ds ≠ [] && (S "gp_").isPrefixOf (r.drop ds.length) then
    s.take (s.length - (ds.length + 3))
  else s

/-- `re.sub(r'_\d+$', '', s)`: remove a trailing `_<digits>` suffix. -/
def stripNumSuffix (s : Str) : Str :=
  let r := s.reverse
  let ds := r.takeWhile isDigitPy
  if ds ≠ [] && (r.drop ds.length).head? = some '_' then
    s.take (s.length - (ds.length + 1))
  else s

/-- The per-filename key computation of the `build_cert_map` loop body
(automation.py lines 104-117): `none` when the file is skipped (not a `.pdf`
or empty key after stripping), otherwise the normalized key. -/
def cert_key_of (filename : Str) : Option Str :=
  if (S ".pdf").isSuffixOf (lowerStr filename) then
    let base := splitextBase filename
    let cleaned := stripNumSuffix (stripPgSuffix (stripCertTok base))
    let nk := normalize_name (pythonStrip cleaned)
    if nk = [] then none else some nk
  else none

/-- `build_cert_map` (automation.py lines 94-120), over an explicit list of
directory entries: insert `normalized key ↦ filename` for each usable file;
a later entry with the same key overwrites the earlier one. -/
def build_cert_map (files : List Str) : KV :=
  files.foldl
    (fun certs fn =>
      match cert_key_of fn with
      | some k => insertKV certs k fn
      | none => certs)
    []

/-- Match tier of a report record (`match_type` column). -/
inductive Tier where
  | exactM : Tier
  | fuzzyM : Tier
  | partM : Tier
deriving DecidableEq, Repr, Inhabited

/-- Status taxonomy of a report record (`status` column). -/
inductive Status where
  | pending : Status
  | invalidEmail : Status
  | matched : Status
  | lowConfMatch : Status
  | certNotFound : Status
deriving DecidableEq, Repr, Inhabited

/-- The match-dependent fields of a report record. -/
structure MatchOut where
  found : Bool
  filename : Option Str
  mtype : Option Tier
  conf : ℚ
  status : Status
deriving DecidableEq, Repr, Inhabited

/-- Python `max(xs, key=f)` for a nonempty list `x :: xs`: the first element
attaining the maximum. -/
def pyMaxBy (f : Str → ℚ) (x : Str) (xs : List Str) : Str :=
  xs.foldl (fun acc y => if f y > f acc then y else acc) x

/-- The three-tier matcher inside `validate_data_and_certificates`
(automation.py lines 182-216): exact dictionary hit, else
`fuzzy_match`/`get_close_matches` at cutoff 0.7 with the reported confidence
recomputed as `SequenceMatcher(None, norm_name, fuzzy_key).ratio()`, else the
first-token partial tier accepted at 0.6.  In the source the norm name fed to
the partial tier is never whitespace-only (it is a `normalize_name` output),
so `split()[0]` is total there; the model uses the first token or `""`. -/
def run_match (norm_name : Str) (cert_map : KV) : MatchOut :=
  let cert_keys := cert_map.map Prod.fst
  match lookupKV cert_map norm_name with
  | some f => ⟨true, some f, some Tier.exactM, 1, Status.matched⟩
  | none =>
    match fuzzy_match norm_name cert_keys (7/10) with
    | some fuzzy_key =>
      let confidence := sm_ratio norm_name fuzzy_key
      ⟨true, lookupKV cert_map fuzzy_key, some Tier.fuzzyM, confidence,
        if confidence ≥ 7/10 then Status.matched else Status.lowConfMatch⟩
    | none =>
      let first_name := if norm_name ≠ [] then (splitWS norm_name).headD [] else []
      let part_keys := cert_keys.filter
        (fun k => first_name.isPrefixOf k || substrB k first_name)
      match part_keys with
      | [] => ⟨false, none, none, 0, Status.certNotFound⟩
      | c :: cs =>
        let best_match := pyMaxBy (fun k => sm_ratio norm_name k) c cs
        let confidence := sm_ratio norm_name best_match
        if confidence ≥ 3/5 then
          ⟨true, lookupKV cert_map best_match, some Tier.partM, confidence,
            Status.matched⟩
        else ⟨false, none, none, 0, Status.certNotFound⟩

/-- One row of the reconciliation report (one element of the `results` list of
`validate_data_and_certificates`). -/
structure Rec where
  idx : Nat
  original_name : Str
  original_email : Str
  cleaned_email : Str
  normalized_name : Str
  valid_email : Bool
  certificate_found : Bool
  certificate_filename : Option Str
  match_type : Option Tier
  match_confidence : ℚ
  status : Status
deriving DecidableEq, Repr, Inhabited

/-- The per-row body of the `validate_data_and_certificates` loop
(automation.py lines 155-218): clean the email, normalize the name,
short-circuit to `invalid_email` when the cleaned email is empty, otherwise run
the matcher. -/
def validate_row (i : Nat) (row : Str × Str) (cert_map : KV) : Rec :=
  let name_raw := pythonStrip row.1
  let email := clean_email row.2
  let norm_name := normalize_name name_raw
  if email = [] then
    { idx := i, original_name := name_raw, original_email := row.2,
      cleaned_email := email, normalized_name := norm_name,
      valid_email := false, certificate_found := false,
      certificate_filename := none, match_type := none,
      match_confidence := 0, status := Status.invalidEmail }
  else
    let mo := run_match norm_name cert_map
    { idx := i, original_name := name_raw, original_email := row.2,
      cleaned_email := email, normalized_name := norm_name,
      valid_email := true, certificate_found := mo.found,
      certificate_filename := mo.filename, match_type := mo.mtype,
      match_confidence := mo.conf, status := mo.status }

/-- The row loop of `validate_data_and_certificates`, starting at row index
`i`. -/
def validateRows (cert_map : KV) : Nat → List (Str × Str) → List Rec
  | _, [] => []
  | i, row :: rest => validate_row i row cert_map :: validateRows cert_map (i + 1) rest

/-- Header auto-detection (automation.py lines 144-150): the first row's two
cells contain `"name"` and `"email"` as case-insensitive substrings. -/
def headerDetected (df : List (Str × Str)) : Bool :=
  match df with
  | [] => false
  | r0 :: _ => substrB (lowerStr r0.1) (S "name") && substrB (lowerStr r0.2) (S "email")

/-- `validate_data_and_certificates` (automation.py lines 134-220): skip a
detected header row, then one record per remaining row in order. -/
def validate_data_and_certificates (df : List (Str × Str)) (cert_map : KV) : List Rec :=
  match df with
  | [] => []
  | r0 :: rest =>
    if headerDetected (r0 :: rest) then validateRows cert_map 1 rest
    else validateRows cert_map 0 (r0 :: rest)

/-- The skip-keyword list of `should_skip_line` (rename.py lines 48-56). -/
def skip_keywords : List Str :=
  [S "certificate", S "certifies", S "congratulations", S "participant",
   S "diploma", S "completion", S "attendance", S "workshop", S "seminar",
   S "course", S "training", S "program", S "event", S "this", S "is awarded to",
   S "hackathon", S "team darion", S "darion", S "date", S "signed", S "winner",
   S "certificate of", S "issued to", S "presented to", S "name", S "student",
   S "the", S "and", S "for", S "this is to", S "we present", S "in recognition of",
   S "please find", S "below", S "attached", S "email", S "gmail", S "outlook"]

/-- The administrative first words of the name-shape override
(rename.py line 62). -/
def adminFirstWords : List Str :=
  [S "certificate", S "this", S "issued", S "presented", S "participant",
   S "congratulations"]

/-- `should_skip_line` (rename.py lines 40-65): a line of two or more
alphabetic tokens whose first token is not administrative is accepted as a
plausible name (not skipped); otherwise skip when any keyword occurs in the
lowercased stripped line. -/
def should_skip_line (line : Str) : Bool :=
  let line_lower := pythonStrip (lowerStr line)
  let words := splitWS line
  if words.length ≥ 2 && words.all (fun w => w ≠ [] && w.all isAlphaPy) then
    if lowerStr (words.headD []) ∈ adminFirstWords then
      skip_keywords.any (fun kw => substrB line_lower kw)
    else false
  else skip_keywords.any (fun kw => substrB line_lower kw)

/-! ### Association-list (Python dict) lemmas -/

theorem lookupKV_insert_self (m : KV) (k v : Str) :
    lookupKV (insertKV m k v) k = some v := by
  induction m with
  | nil => simp [insertKV, lookupKV]
  | cons p t ih =>
    by_cases h : p.1 = k
    · simp [insertKV, lookupKV, h]
    · simp [insertKV, lookupKV, h, Ne.symm h, ih]

theorem lookupKV_insert_ne (m : KV) (k v q : Str) (hq : q ≠ k) :
    lookupKV (insertKV m k v) q = lookupKV m q := by
  induction m with
  | nil => simp [insertKV, lookupKV, hq]
  | cons p t ih =>
    by_cases h : p.1 = k
    · simp [insertKV, lookupKV, h, hq]
    · simp only [insertKV, if_neg h, lookupKV]
      by_cases hqp : q = p.1 <;> simp [hqp, ih]

theorem lookupKV_isSome_of_mem (m : KV) (k : Str) (hk : k ∈ m.map Prod.fst) :
    ∃ v, lookupKV m k = some v := by
  induction m with
  | nil => simp at hk
  | cons p t ih =>
    by_cases h : k = p.1
    · exact ⟨p.2, by simp [lookupKV, h]⟩
    · simp only [List.map_cons, List.mem_cons] at hk
      obtain ⟨v, hv⟩ := ih (hk.resolve_left h)
      exact ⟨v, by simp [lookupKV, h, hv]⟩

theorem lookupKV_mem_values (m : KV) (k v : Str) (h : lookupKV m k = some v) :
    v ∈ m.map Prod.snd := by
  induction m with
  | nil => simp [lookupKV] at h
  | cons p t ih =>
    by_cases hk : k = p.1
    · simp only [lookupKV, if_pos hk, Option.some.injEq] at h
      simp [h]
    · simp only [lookupKV, if_neg hk] at h
      simp [ih h]

/-! ### Report-builder structure lemmas -/

theorem mem_validateRows {m : KV} {r : Rec} :
    ∀ {i : Nat} {rows : List (Str × Str)}, r ∈ validateRows m i rows →
      ∃ j row, r = validate_row j row m := by
  intro i rows
  induction rows generalizing i with
  | nil => intro h; simp [validateRows] at h
  | cons p t ih =>
    intro h
    simp only [validateRows, List.mem_cons] at h
    rcases h with h | h
    · exact ⟨i, p, h⟩
    · exact ih h

theorem mem_report (df : List (Str × Str)) (m : KV) (r : Rec)
    (h : r ∈ validate_data_and_certificates df m) :
    ∃ j row, r = validate_row j row m := by
  unfold validate_data_and_certificates at h
  match df with
  | [] => simp at h
  | r0 :: rest =>
    simp only at h
    split at h
    · exact mem_validateRows h
    · exact mem_validateRows h

theorem validateRows_get? (m : KV) (rows : List (Str × Str)) :
    ∀ (j i : Nat), (validateRows m j rows).get? i =
      (rows.get? i).map (fun row => validate_row (j + i) row m) := by
  induction rows with
  | nil => intro j i; simp [validateRows]
  | cons p t ih =>
    intro j i
    match i with
    | 0 => simp [validateRows]
    | Nat.succ i' =>
      simp only [validateRows, List.get?_cons_succ, ih (j + 1) i']
      have : j + 1 + i' = j + (i' + 1) := by omega
      rw [this]

theorem validateRows_length (m : KV) (rows : List (Str × Str)) :
    ∀ j, (validateRows m j rows).length = rows.length := by
  induction rows with
  | nil => intro j; simp [validateRows]
  | cons p t ih => intro j; simp [validateRows, ih]

theorem validate_row_original_email (i : Nat) (row : Str × Str) (m : KV) :
    (validate_row i row m).original_email = row.2 := by
  by_cases h : clean_email row.2 = [] <;> simp [validate_row, h]

theorem validate_row_invalid (i : Nat) (row : Str × Str) (m : KV)
    (h : clean_email row.2 = []) :
    validate_row i row m =
      { idx := i, original_name := pythonStrip row.1, original_email := row.2,
        cleaned_email := [], normalized_name := normalize_name (pythonStrip row.1),
        valid_email := false, certificate_found := false,
        certificate_filename := none, match_type := none,
        match_confidence := 0, status := Status.invalidEmail } := by
  simp [validate_row, h]

/-! ### Matcher membership lemmas -/

theorem pyMaxBy_mem (f : Str → ℚ) (x : Str) (xs : List Str) :
    pyMaxBy f x xs ∈ x :: xs := by
  unfold pyMaxBy
  induction xs generalizing x with
  | nil => simp
  | cons y t ih =>
    simp only [List.foldl_cons]
    by_cases h : f y > f x
    · simp only [if_pos h]
      have := ih y
      rcases List.mem_cons.mp this with h' | h' <;> simp [h']
    · simp only [if_neg h]
      have := ih x
      rcases List.mem_cons.mp this with h' | h' <;> simp [h']

theorem nlargest_mem {p : ℚ × Str} :
    ∀ {scored : List (ℚ × Str)} {acc : Option (ℚ × Str)},
      (scored.foldl
        (fun (acc : Option (ℚ × Str)) (q : ℚ × Str) =>
          match acc with
          | none => some q
          | some b => if q.1 > b.1 || (q.1 = b.1 && strLtB b.2 q.2) then some q else some b)
        acc) = some p →
      p ∈ scored ∨ acc = some p := by
  intro scored
  induction scored with
  | nil => intro acc h; exact Or.inr h
  | cons q t ih =>
    intro acc h
    simp only [List.foldl_cons] at h
    rcases ih h with h' | h'
    · exact Or.inl (List.mem_cons_of_mem _ h')
    · match acc with
      | none =>
        simp only [Option.some.injEq] at h'
        exact Or.inl (h' ▸ List.mem_cons_self _ _)
      | some b =>
        simp only at h'
        split at h'
        · simp only [Option.some.injEq] at h'
          exact Or.inl (h' ▸ List.mem_cons_self _ _)
        · exact Or.inr h'

theorem get_close_matches1_mem (word k : Str) (poss : List Str) (cutoff : ℚ)
    (h : get_close_matches1 word poss cutoff = some k) : k ∈ poss := by
  unfold get_close_matches1 at h
  simp only [Option.map_eq_some'] at h
  obtain ⟨p, hp, rfl⟩ := h
  rcases nlargest_mem hp with h' | h'
  · have := List.mem_filterMap.mp h'
    obtain ⟨x, hx, hfx⟩ := this
    split at hfx
    · simp only [Option.some.injEq] at hfx
      subst hfx
      exact hx
    · simp at hfx
  · simp at h'

theorem get_close_matches1_none (word : Str) (poss : List Str) (cutoff : ℚ)
    (h : ∀ x ∈ poss, ¬(sm_real_quick_ratio x word ≥ cutoff ∧
                      sm_quick_ratio x word ≥ cutoff ∧ sm_ratio x word ≥ cutoff)) :
    get_close_matches1 word poss cutoff = none := by
  unfold get_close_matches1
  have : poss.filterMap (fun x =>
      if sm_real_quick_ratio x word ≥ cutoff && sm_quick_ratio x word ≥ cutoff &&
         sm_ratio x word ≥ cutoff then
        some (sm_ratio x word, x)
      else none) = [] := by
    rw [List.filterMap_eq_nil_iff]
    intro x hx
    have hnot := h x hx
    split
    · rename_i hcond
      simp only [Bool.and_eq_true, decide_eq_true_eq] at hcond
      exact absurd ⟨hcond.1.1, hcond.1.2, hcond.2⟩ hnot
    · rfl
  rw [this]
  rfl

/-! ### Claims -/

/-- Claim C1: the fuzzy tier can produce a result with tier=fuzzy and
status=low_confidence_match, reporting the (sub-threshold) similarity as the
confidence instead of dropping the row.  Witnessed by query key "abdb" against
an index built from the single file "bdab.pdf": `get_close_matches` scores the
candidate as `ratio("bdab","abdb") = 3/4 ≥ 0.7`, but the reported confidence is
the opposite-order `ratio("abdb","bdab") = 1/2 < 0.7` (difflib's ratio is not
symmetric), so the row is kept with tier=fuzzy, status=low_confidence_match and
confidence 1/2. -/
theorem fuzzy_low_confidence_reachable :
    run_match (S "abdb") [(S "bdab", S "bdab.pdf")] =
      { found := true, filename := some (S "bdab.pdf"), mtype := some Tier.fuzzyM,
        conf := 1/2, status := Status.lowConfMatch } ∧
    build_cert_map [S "bdab.pdf"] = [(S "bdab", S "bdab.pdf")] ∧
    normalize_name (S "abdb") = S "abdb" ∧
    ((1 : ℚ)/2 < 7/10) :=
  ⟨by with_unfolding_all decide, by decide, by decide, by with_unfolding_all decide⟩

/-- Claim C3 counterexample: the index built from
`["Certificate_Harsha_pg001.pdf", "Certificate_Amit_Kumar_2.pdf"]` has no
entry for the key "amit kumar" — `normalize_name` deletes the underscore
rather than turning it into a space. -/
theorem index_no_amit_kumar_key :
    lookupKV
      (build_cert_map [S "Certificate_Harsha_pg001.pdf", S "Certificate_Amit_Kumar_2.pdf"])
      (S "amit kumar") = none := by
  decide

/-- Claim C3 (amended): building the index from
`["Certificate_Harsha_pg001.pdf", "Certificate_Amit_Kumar_2.pdf"]` yields
exactly the mapping `{"harsha" ↦ "Certificate_Harsha_pg001.pdf",
"amitkumar" ↦ "Certificate_Amit_Kumar_2.pdf"}` — the underscore between name
tokens is removed (not replaced by a space) because `normalize_name` deletes
every character that is not a lowercase letter or whitespace. -/
theorem index_build_example :
    build_cert_map [S "Certificate_Harsha_pg001.pdf", S "Certificate_Amit_Kumar_2.pdf"] =
      [(S "harsha", S "Certificate_Harsha_pg001.pdf"),
       (S "amitkumar", S "Certificate_Amit_Kumar_2.pdf")] := by
  decide

/-- Claim C4: a report row whose email is invalid even after repair is
short-circuited to status=invalid_email with confidence 0, no tier, no found
certificate and no filename, for any certificate index (the matcher's result
never enters the record). -/
theorem invalid_email_short_circuit (df : List (Str × Str)) (m : KV) (r : Rec)
    (hr : r ∈ validate_data_and_certificates df m)
    (he : clean_email r.original_email = []) :
    r.status = Status.invalidEmail ∧ r.valid_email = false ∧
    r.certificate_found = false ∧ r.certificate_filename = none ∧
    r.match_type = none ∧ r.match_confidence = 0 := by
  obtain ⟨j, row, hrr⟩ := mem_report df m r hr
  rw [hrr, validate_row_original_email] at he
  rw [hrr, validate_row_invalid j row m he]
  exact ⟨rfl, rfl, rfl, rfl, rfl, rfl⟩

/-- Claim C4 witness: the roster row ("Harsha", "not-an-email") against an
index that does contain a certificate for "harsha" is reported as
invalid_email with all match fields empty. -/
theorem invalid_email_short_circuit_witness :
    ((validate_data_and_certificates [(S "Harsha", S "not-an-email")]
        [(S "harsha", S "x.pdf")]).headD default ∈
      validate_data_and_certificates [(S "Harsha", S "not-an-email")]
        [(S "harsha", S "x.pdf")]) ∧
    ((validate_data_and_certificates [(S "Harsha", S "not-an-email")]
        [(S "harsha", S "x.pdf")]).headD default).status = Status.invalidEmail := by
  refine ⟨by decide, ?_⟩
  exact (invalid_email_short_circuit [(S "Harsha", S "not-an-email")]
    [(S "harsha", S "x.pdf")] _ (by decide) (by decide)).1

/-- Claim C5 counterexample: a one-row roster whose single row looks like a
header ("Name"/"Email") produces a report with 0 records, not 1 — the header
auto-detection drops the first row. -/
theorem header_row_shrinks_report :
    (validate_data_and_certificates [(S "Name", S "Email")] []).length ≠ 1 := by
  decide

/-- Claim C5 (amended): for every roster whose first row is not auto-detected
as a header, the report has exactly one record per input row, in original row
order (the record at position i is built from the row at position i with row
index i). -/
theorem report_row_alignment (df : List (Str × Str)) (m : KV)
    (h : headerDetected df = false) :
    (validate_data_and_certificates df m).length = df.length ∧
    ∀ i, (validate_data_and_certificates df m).get? i =
      (df.get? i).map (fun row => validate_row i row m) := by
  match df with
  | [] => exact ⟨rfl, fun i => by simp [validate_data_and_certificates]⟩
  | r0 :: rest =>
    simp only [validate_data_and_certificates, h, Bool.false_eq_true, if_false]
    refine ⟨validateRows_length m (r0 :: rest) 0, fun i => ?_⟩
    have := validateRows_get? m (r0 :: rest) 0 i
    simpa using this

/-- Claim C5 witness: a single non-header roster row yields exactly one
record, aligned with the input row. -/
theorem report_row_alignment_witness :
    (validate_data_and_certificates [(S "Alice", S "a@b.co")] []).length = 1 ∧
    (validate_data_and_certificates [(S "Alice", S "a@b.co")] []).get? 0 =
      (([(S "Alice", S "a@b.co")] : List (Str × Str)).get? 0).map
        (fun row => validate_row 0 row []) :=
  ⟨(report_row_alignment [(S "Alice", S "a@b.co")] [] (by decide)).1,
   (report_row_alignment [(S "Alice", S "a@b.co")] [] (by decide)).2 0⟩

/-- Claim C8: an exact dictionary hit returns tier=exact, confidence 1.0 and
the indexed filename; neither the fuzzy nor the partial tier is consulted. -/
theorem exact_tier_hit (m : KV) (k f : Str) (h : lookupKV m k = some f) :
    run_match k m =
      { found := true, filename := some f, mtype := some Tier.exactM,
        conf := 1, status := Status.matched } := by
  unfold run_match
  rw [h]

/-- Claim C8 witness: the key "harsha" present in a concrete index is matched
exactly with confidence 1. -/
theorem exact_tier_hit_witness :
    lookupKV [(S "harsha", S "x.pdf")] (S "harsha") = some (S "x.pdf") ∧
    run_match (S "harsha") [(S "harsha", S "x.pdf")] =
      { found := true, filename := some (S "x.pdf"), mtype := some Tier.exactM,
        conf := 1, status := Status.matched } :=
  ⟨by decide, exact_tier_hit _ _ _ (by decide)⟩

/-- Claim C9: a line of two or more whitespace-separated alphabetic-only
tokens whose first token is not an administrative word is never skipped, even
when a skip-list keyword occurs inside the line. -/
theorem name_shape_override (line : Str)
    (h2 : (splitWS line).length ≥ 2)
    (ha : ∀ w ∈ splitWS line, w ≠ [] ∧ w.all isAlphaPy = true)
    (hf : lowerStr ((splitWS line).headD []) ∉ adminFirstWords) :
    should_skip_line line = false := by
  unfold should_skip_line
  have hcond : ((splitWS line).length ≥ 2 &&
      (splitWS line).all (fun w => w ≠ [] && w.all isAlphaPy)) = true := by
    rw [Bool.and_eq_true]
    constructor
    · exact decide_eq_true h2
    · rw [List.all_eq_true]
      intro w hw
      rw [Bool.and_eq_true]
      exact ⟨decide_eq_true (ha w hw).1, (ha w hw).2⟩
  simp only [hcond, if_true]
  rw [if_neg hf]

/-- Claim C9 witness: "John Certificate" contains the skip keyword
"certificate" but is two alphabetic tokens with non-administrative first
token, so it is accepted as a plausible name. -/
theorem name_shape_override_witness :
    (splitWS (S "John Certificate")).length ≥ 2 ∧
    should_skip_line (S "John Certificate") = false :=
  ⟨by decide,
   name_shape_override _ (by decide) (by decide) (by decide)⟩

/-- Claim C10 counterexample: the report row for roster ("abdb", "a@b.co")
against index {"bdab" ↦ "x.pdf"} has certificate_found = true but
match_confidence = 1/2 < 0.6, refuting the claimed invariant that a found
certificate always carries confidence at least 0.6. -/
theorem found_below_point_six :
    ((validate_data_and_certificates [(S "abdb", S "a@b.co")]
        [(S "bdab", S "x.pdf")]).headD default).certificate_found = true ∧
    ((validate_data_and_certificates [(S "abdb", S "a@b.co")]
        [(S "bdab", S "x.pdf")]).headD default).match_confidence < 3/5 := by
  with_unfolding_all decide

/-! ### Index construction lemmas (C6, C7) -/

theorem mem_insertKV (m : KV) (k v : Str) (p : Str × Str)
    (h : p ∈ insertKV m k v) : p.1 = k ∨ p ∈ m := by
  induction m with
  | nil => simp [insertKV] at h; simp [h]
  | cons q t ih =>
    by_cases hq : q.1 = k
    · simp only [insertKV, if_pos hq, List.mem_cons] at h
      rcases h with h | h
      · exact Or.inl (by rw [h]; exact hq)
      · exact Or.inr (List.mem_cons_of_mem _ h)
    · simp only [insertKV, if_neg hq, List.mem_cons] at h
      rcases h with h | h
      · exact Or.inr (by simp [h])
      · rcases ih h with h' | h'
        · exact Or.inl h'
        · exact Or.inr (List.mem_cons_of_mem _ h')

theorem mem_keys_insertKV (m : KV) (k v q : Str)
    (h : q ∈ (insertKV m k v).map Prod.fst) : q ∈ m.map Prod.fst ∨ q = k := by
  simp only [List.mem_map] at h
  obtain ⟨p, hp, rfl⟩ := h
  rcases mem_insertKV m k v p hp with h' | h'
  · exact Or.inr h'
  · exact Or.inl (List.mem_map_of_mem _ h')

theorem nodup_keys_insertKV (m : KV) (k v : Str)
    (h : (m.map Prod.fst).Nodup) : ((insertKV m k v).map Prod.fst).Nodup := by
  induction m with
  | nil => simp [insertKV]
  | cons q t ih =>
    simp only [List.map_cons, List.nodup_cons] at h
    by_cases hq : q.1 = k
    · simp only [insertKV, if_pos hq, List.map_cons, List.nodup_cons]
      exact h
    · simp only [insertKV, if_neg hq, List.map_cons, List.nodup_cons]
      refine ⟨fun hmem => ?_, ih h.2⟩
      rcases mem_keys_insertKV t k v q.1 hmem with h' | h'
      · exact h.1 h'
      · exact hq h'

theorem build_cert_map_step_lookup (fs : List Str) :
    ∀ (m : KV) (k : Str),
      lookupKV
        (fs.foldl
          (fun certs fn =>
            match cert_key_of fn with
            | some k => insertKV certs k fn
            | none => certs)
          m) k =
      ((fs.filter (fun f => cert_key_of f = some k)).getLast?).elim (lookupKV m k) some := by
  induction fs with
  | nil => intro m k; simp
  | cons f t ih =>
    intro m k
    simp only [List.foldl_cons, List.filter_cons]
    by_cases hf : cert_key_of f = some k
    · rw [if_pos (decide_eq_true hf)]
      simp only [hf]
      cases hft : t.filter (fun f => cert_key_of f = some k) with
      | nil =>
        have h2 := ih (insertKV m k f) k
        rw [hft] at h2
        simp only [List.getLast?_nil, Option.elim] at h2
        simp only [List.getLast?_singleton, Option.elim]
        rw [h2, lookupKV_insert_self]
      | cons x xs =>
        have h2 := ih (insertKV m k f) k
        rw [hft] at h2
        rw [List.getLast?_cons_cons]
        have hne : (x :: xs).getLast?.isSome := by
          rw [List.getLast?_isSome]
          simp
        obtain ⟨g, hg⟩ := Option.isSome_iff_exists.mp hne
        rw [hg] at h2 ⊢
        simpa using h2
    · rw [if_neg (by simpa using hf)]
      cases hck : cert_key_of f with
      | none =>
        simp only [hck]
        exact ih m k
      | some k' =>
        have hkk : k ≠ k' := fun h => hf (by rw [hck, h])
        simp only [hck]
        have h2 := ih (insertKV m k' f) k
        rw [lookupKV_insert_ne m k' f k hkk] at h2
        exact h2

theorem build_cert_map_keys_nodup (fs : List Str) :
    ((build_cert_map fs).map Prod.fst).Nodup := by
  unfold build_cert_map
  have : ∀ (m : KV), (m.map Prod.fst).Nodup →
      ((fs.foldl
        (fun certs fn =>
          match cert_key_of fn with
          | some k => insertKV certs k fn
          | none => certs)
        m).map Prod.fst).Nodup := by
    induction fs with
    | nil => intro m hm; exact hm
    | cons f t ih =>
      intro m hm
      simp only [List.foldl_cons]
      cases hck : cert_key_of f with
      | none => exact ih m hm
      | some k' => exact ih (insertKV m k' f) (nodup_keys_insertKV m k' f hm)
  exact this [] (by simp)

/-- Claim C6: index construction is last-write-wins — the index keys are
pairwise distinct (so each key maps to at most one filename), and a key looks
up to exactly the last file in the input sequence that produces that key
(later entries silently overwrite earlier ones). -/
theorem index_last_write_wins (fs : List Str) (k : Str) :
    ((build_cert_map fs).map Prod.fst).Nodup ∧
    lookupKV (build_cert_map fs) k =
      (fs.filter (fun f => cert_key_of f = some k)).getLast? := by
  refine ⟨build_cert_map_keys_nodup fs, ?_⟩
  unfold build_cert_map
  rw [build_cert_map_step_lookup fs [] k]
  cases (fs.filter (fun f => cert_key_of f = some k)).getLast? with
  | none => simp [lookupKV]
  | some g => simp

/-! ### Empty-key lemmas (C7) -/

theorem cert_key_of_ne_nil (f k : Str) (h : cert_key_of f = some k) : k ≠ [] := by
  simp only [cert_key_of] at h
  split at h
  · split at h
    · exact absurd h (by simp)
    · rename_i hne
      simp only [Option.some.injEq] at h
      rw [← h]
      exact hne
  · exact absurd h (by simp)

theorem foldl_build_keys_ne_nil (fs : List Str) :
    ∀ (m : KV), (∀ q ∈ m, q.1 ≠ []) →
      ∀ q ∈ fs.foldl
        (fun certs fn =>
          match cert_key_of fn with
          | some k => insertKV certs k fn
          | none => certs)
        m, q.1 ≠ [] := by
  induction fs with
  | nil => intro m hm q hq; exact hm q hq
  | cons f t ih =>
    intro m hm q hq
    simp only [List.foldl_cons] at hq
    cases hck : cert_key_of f with
    | none =>
      rw [hck] at hq
      exact ih m hm q hq
    | some k' =>
      rw [hck] at hq
      refine ih (insertKV m k' f) ?_ q hq
      intro q' hq'
      rcases mem_insertKV m k' f q' hq' with h' | h'
      · rw [h']
        exact cert_key_of_ne_nil f k' hck
      · exact hm q' h'

theorem mem_build_cert_map_key_ne_nil (fs : List Str) (p : Str × Str)
    (hp : p ∈ build_cert_map fs) : p.1 ≠ [] := by
  unfold build_cert_map at hp
  exact foldl_build_keys_ne_nil fs [] (by simp) p hp

theorem lookupKV_nil_key_none (m : KV) (hm : ∀ q ∈ m, q.1 ≠ []) :
    lookupKV m [] = none := by
  induction m with
  | nil => rfl
  | cons p t ih =>
    have hp : p.1 ≠ [] := hm p (List.mem_cons_self p t)
    simp only [lookupKV]
    rw [if_neg (fun h => hp h.symm)]
    exact ih (fun q hq => hm q (List.mem_cons_of_mem p hq))

theorem matchingSize_nil_left (b : Str) : matchingSize [] b = 0 := by
  unfold matchingSize matchingSizeAux
  cases b with
  | nil => rfl
  | cons c cs => rfl

theorem sm_ratio_nil_left (b : Str) (hb : b ≠ []) : sm_ratio [] b = 0 := by
  unfold sm_ratio calcRatio
  rw [matchingSize_nil_left]
  rw [if_neg (by simpa using hb)]
  simp

theorem sm_real_quick_ratio_nil_right (x : Str) (hx : x ≠ []) :
    sm_real_quick_ratio x [] = 0 := by
  unfold sm_real_quick_ratio calcRatio
  rw [if_neg (by simpa using hx)]
  simp

theorem filter_nil_first (keys : List Str) :
    keys.filter (fun k => List.isPrefixOf ([] : Str) k || substrB k []) = keys := by
  induction keys with
  | nil => rfl
  | cons c cs ih =>
    simp only [List.filter_cons]
    have hc : (List.isPrefixOf ([] : Str) c || substrB c []) = true := by
      simp
    rw [if_pos hc, ih]

/-- Claim C7: the empty query key never matches: against any index produced by
the index builder (whose keys are all nonempty), the matcher reports
certificate_found=false, no filename, no tier, confidence 0 and
status=certificate_not_found — the exact, fuzzy and partial tiers all reject
it. -/
theorem empty_key_never_matches (fs : List Str) :
    run_match [] (build_cert_map fs) =
      { found := false, filename := none, mtype := none, conf := 0,
        status := Status.certNotFound } := by
  have hkeys : ∀ q ∈ build_cert_map fs, q.1 ≠ [] := mem_build_cert_map_key_ne_nil fs
  have h1 : lookupKV (build_cert_map fs) [] = none := lookupKV_nil_key_none _ hkeys
  have h2 : fuzzy_match [] ((build_cert_map fs).map Prod.fst) (7/10) = none := by
    unfold fuzzy_match
    apply get_close_matches1_none
    intro x hx hcon
    have hxne : x ≠ [] := by
      simp only [List.mem_map] at hx
      obtain ⟨p, hp, rfl⟩ := hx
      exact hkeys p hp
    have h3 := hcon.1
    rw [sm_real_quick_ratio_nil_right x hxne] at h3
    norm_num at h3
  unfold run_match
  simp only [h1, h2]
  simp only [ne_eq, not_true_eq_false, if_false]
  rw [filter_nil_first]
  split
  · rfl
  · rename_i c cs hkl
    have hbest : pyMaxBy (fun k => sm_ratio [] k) c cs ∈ c :: cs := pyMaxBy_mem _ c cs
    have hbne : pyMaxBy (fun k => sm_ratio [] k) c cs ≠ [] := by
      rw [← hkl] at hbest
      simp only [List.mem_map] at hbest
      obtain ⟨p, hp, hpe⟩ := hbest
      rw [← hpe]
      exact hkeys p hp
    have hzero : sm_ratio [] (pyMaxBy (fun k => sm_ratio [] k) c cs) = 0 :=
      sm_ratio_nil_left _ hbne
    rw [hzero]
    rw [if_neg (by norm_num)]

theorem fuzzy_match_mem (name k : Str) (keys : List Str) (cutoff : ℚ)
    (h : fuzzy_match name keys cutoff = some k) : k ∈ keys := by
  unfold fuzzy_match at h
  exact get_close_matches1_mem name k keys cutoff h

theorem run_match_shape (norm : Str) (m : KV) :
    (∃ f, lookupKV m norm = some f ∧
      run_match norm m = ⟨true, some f, some Tier.exactM, 1, Status.matched⟩) ∨
    (∃ k, k ∈ m.map Prod.fst ∧
      run_match norm m = ⟨true, lookupKV m k, some Tier.fuzzyM, sm_ratio norm k,
        if sm_ratio norm k ≥ 7/10 then Status.matched else Status.lowConfMatch⟩) ∨
    (∃ b, b ∈ m.map Prod.fst ∧ sm_ratio norm b ≥ 3/5 ∧
      run_match norm m = ⟨true, lookupKV m b, some Tier.partM, sm_ratio norm b,
        Status.matched⟩) ∨
    run_match norm m = ⟨false, none, none, 0, Status.certNotFound⟩ := by
  unfold run_match
  dsimp only
  cases h1 : lookupKV m norm with
  | some f => exact Or.inl ⟨f, rfl, rfl⟩
  | none =>
    cases h2 : fuzzy_match norm (List.map Prod.fst m) (7/10) with
    | some k =>
      refine Or.inr (Or.inl ⟨k, fuzzy_match_mem _ _ _ _ h2, ?_⟩)
      rfl
    | none =>
      cases h3 : List.filter
          (fun k => List.isPrefixOf (if norm ≠ [] then (splitWS norm).headD [] else []) k ||
            substrB k (if norm ≠ [] then (splitWS norm).headD [] else []))
          (List.map Prod.fst m) with
      | nil => exact Or.inr (Or.inr (Or.inr rfl))
      | cons c cs =>
        by_cases hge :
            sm_ratio norm (pyMaxBy (fun k => sm_ratio norm k) c cs) ≥ 3/5
        · refine Or.inr (Or.inr (Or.inl
            ⟨pyMaxBy (fun k => sm_ratio norm k) c cs, ?_, hge, ?_⟩))
          · have hmem := pyMaxBy_mem (fun k => sm_ratio norm k) c cs
            rw [← h3] at hmem
            exact List.mem_of_mem_filter hmem
          · dsimp only
            rw [if_pos hge]
        · refine Or.inr (Or.inr (Or.inr ?_))
          dsimp only
          rw [if_neg hge]

/-- Claim C10 (amended): every report record is internally consistent —
certificate_found holds exactly when a matched filename is present, exactly
when the status is matched or low_confidence_match; a found filename is always
a value of the index; an exact-tier record has confidence 1 and a partial-tier
record has confidence at least 0.6.  (A fuzzy-tier record reports the
recomputed similarity as its confidence, which can be below 0.6 — see the
counterexample — so the original claim's unconditional 0.6 bound is weakened
to the exact and partial tiers.) -/
theorem report_row_invariant (df : List (Str × Str)) (m : KV) (r : Rec)
    (hr : r ∈ validate_data_and_certificates df m) :
    (r.certificate_found = true ↔ r.certificate_filename.isSome = true) ∧
    (r.certificate_found = true ↔
      (r.status = Status.matched ∨ r.status = Status.lowConfMatch)) ∧
    (r.certificate_found = true →
      ∃ f, r.certificate_filename = some f ∧ f ∈ m.map Prod.snd) ∧
    (r.match_type = some Tier.exactM → r.match_confidence = 1) ∧
    (r.match_type = some Tier.partM → r.match_confidence ≥ 3/5) := by
  obtain ⟨j, row, hrr⟩ := mem_report df m r hr
  by_cases he : clean_email row.2 = []
  · rw [hrr, validate_row_invalid j row m he]
    refine ⟨by simp, by simp, by simp, by simp, by simp⟩
  · have hv : validate_row j row m =
        { idx := j, original_name := pythonStrip row.1, original_email := row.2,
          cleaned_email := clean_email row.2,
          normalized_name := normalize_name (pythonStrip row.1),
          valid_email := true,
          certificate_found := (run_match (normalize_name (pythonStrip row.1)) m).found,
          certificate_filename :=
            (run_match (normalize_name (pythonStrip row.1)) m).filename,
          match_type := (run_match (normalize_name (pythonStrip row.1)) m).mtype,
          match_confidence := (run_match (normalize_name (pythonStrip row.1)) m).conf,
          status := (run_match (normalize_name (pythonStrip row.1)) m).status } := by
      simp [validate_row, he]
    rw [hrr, hv]
    rcases run_match_shape (normalize_name (pythonStrip row.1)) m with
      ⟨f, hl, heq⟩ | ⟨k, hk, heq⟩ | ⟨b, hb, hge, heq⟩ | heq
    · rw [heq]
      refine ⟨by simp, by simp, fun _ => ⟨f, by simp, lookupKV_mem_values m _ f hl⟩,
        fun _ => rfl, fun hh => by simp at hh⟩
    · obtain ⟨v, hv2⟩ := lookupKV_isSome_of_mem m k hk
      rw [heq]
      refine ⟨by simp [hv2], ?_, fun _ => ⟨v, by simp [hv2], lookupKV_mem_values m k v hv2⟩,
        fun hh => by simp at hh, fun hh => by simp at hh⟩
      constructor
      · intro _
        by_cases hc : sm_ratio (normalize_name (pythonStrip row.1)) k ≥ 7/10
        · exact Or.inl (by dsimp only; rw [if_pos hc])
        · exact Or.inr (by dsimp only; rw [if_neg hc])
      · intro _
        rfl
    · obtain ⟨v, hv2⟩ := lookupKV_isSome_of_mem m b hb
      rw [heq]
      refine ⟨by simp [hv2], by simp, fun _ => ⟨v, by simp [hv2], lookupKV_mem_values m b v hv2⟩,
        fun hh => by simp at hh, fun _ => hge⟩
    · rw [heq]
      refine ⟨by simp, by simp, by simp, by simp, by simp⟩

/-- Claim C10 (amended) witness: the invariant instantiated at the concrete
one-row roster ("harsha", "h@x.io") against the index {"harsha" ↦ "x.pdf"}. -/
theorem report_row_invariant_witness :
    (((validate_data_and_certificates [(S "harsha", S "h@x.io")]
        [(S "harsha", S "x.pdf")]).headD default).certificate_found = true ↔
      ((validate_data_and_certificates [(S "harsha", S "h@x.io")]
        [(S "harsha", S "x.pdf")]).headD default).certificate_filename.isSome = true) ∧
    (((validate_data_and_certificates [(S "harsha", S "h@x.io")]
        [(S "harsha", S "x.pdf")]).headD default).match_type = some Tier.exactM →
      ((validate_data_and_certificates [(S "harsha", S "h@x.io")]
        [(S "harsha", S "x.pdf")]).headD default).match_confidence = 1) := by
  refine ⟨?_, ?_⟩
  · exact (report_row_invariant [(S "harsha", S "h@x.io")] [(S "harsha", S "x.pdf")]
      _ (by with_unfolding_all decide)).1
  · exact (report_row_invariant [(S "harsha", S "h@x.io")] [(S "harsha", S "x.pdf")]
      _ (by with_unfolding_all decide)).2.2.2.1

/-! ### Character facts for the normalizer (C2) -/

theorem isLowerAZ_not_ws (c : Char) (h : isLowerAZ c = true) : isWS c = false := by
  simp only [isLowerAZ, Bool.and_eq_true, decide_eq_true_eq] at h
  simp only [isWS, Bool.or_eq_false_iff, decide_eq_false_iff_not]
  refine ⟨⟨⟨⟨⟨?_, ?_⟩, ?_⟩, ?_⟩, ?_⟩, ?_⟩ <;>
    · intro hc
      exact absurd (hc ▸ h.1) (by decide)

theorem isLowerAZ_word (c : Char) (h : isLowerAZ c = true) : isWordChar c = true := by
  simp [isWordChar, isAlphaPy, h]

theorem isLowerAZ_not_upper (c : Char) (h : isLowerAZ c = true) : isUpperAZ c = false := by
  simp only [isLowerAZ, Bool.and_eq_true, decide_eq_true_eq] at h
  simp only [isUpperAZ, Bool.and_eq_false_iff, decide_eq_false_iff_not]
  right
  intro hc
  exact absurd (le_trans h.1 hc) (by decide)

theorem isLowerAZ_toNat_lt (c : Char) (h : isLowerAZ c = true) : c.toNat < 128 := by
  simp only [isLowerAZ, Bool.and_eq_true, decide_eq_true_eq] at h
  have h3 : c.toNat ≤ ('z' : Char).toNat := by
    simpa [Char.le_def, UInt32.le_def, BitVec.le_def, Char.toNat, UInt32.toNat] using h.2
  have h4 : ('z' : Char).toNat = 122 := rfl
  omega

theorem splitWSAux_nil (n : Nat) : splitWSAux n [] = [] := by
  cases n <;> rfl

theorem splitWSAux_fuel : ∀ (n m : Nat) (s : Str), s.length ≤ n → s.length ≤ m →
    splitWSAux n s = splitWSAux m s := by
  intro n
  induction n with
  | zero =>
    intro m s hn _
    have : s = [] := List.length_eq_zero.mp (Nat.le_zero.mp hn)
    rw [this, splitWSAux_nil, splitWSAux_nil]
  | succ n ih =>
    intro m s hn hm
    match s with
    | [] => rw [splitWSAux_nil, splitWSAux_nil]
    | c :: cs =>
      match m with
      | 0 => exact absurd hm (by simp)
      | Nat.succ m' =>
        simp only [List.length_cons, Nat.succ_le_succ_iff] at hn hm
        simp only [splitWSAux]
        by_cases hc : isWS c = true
        · rw [hc]
          simp only [if_true]
          exact ih m' cs hn hm
        · rw [Bool.not_eq_true] at hc
          rw [hc]
          simp only [Bool.false_eq_true, if_false]
          have hd : (cs.dropWhile (fun d => !isWS d)).length ≤ cs.length :=
            List.Sublist.length_le (List.dropWhile_sublist _)
          rw [ih m' (cs.dropWhile (fun d => !isWS d)) (le_trans hd hn) (le_trans hd hm)]

theorem splitWS_cons_ws (c : Char) (cs : Str) (h : isWS c = true) :
    splitWS (c :: cs) = splitWS cs := by
  unfold splitWS
  simp only [List.length_cons, splitWSAux, h, if_true]

theorem splitWS_cons_nws (c : Char) (cs : Str) (h : isWS c = false) :
    splitWS (c :: cs) =
      (c :: cs.takeWhile (fun d => !isWS d)) ::
        splitWS (cs.dropWhile (fun d => !isWS d)) := by
  unfold splitWS
  simp only [List.length_cons, splitWSAux, h, Bool.false_eq_true, if_false]
  have hd : (cs.dropWhile (fun d => !isWS d)).length ≤ cs.length :=
    List.Sublist.length_le (List.dropWhile_sublist _)
  rw [splitWSAux_fuel cs.length (cs.dropWhile (fun d => !isWS d)).length _ hd le_rfl]

/-! ### Shape of the normalizer's output (C2) -/

theorem squeezeAux_chars : ∀ (s : Str) (b : Bool) (c : Char),
    c ∈ squeezeAux b s → c = ' ' ∨ (c ∈ s ∧ isWS c = false) := by
  intro s
  induction s with
  | nil => intro b c h; simp [squeezeAux] at h
  | cons d ds ih =>
    intro b c h
    by_cases hd : isWS d = true
    · simp only [squeezeAux, hd, if_true] at h
      by_cases hb : b
      · rw [if_pos hb] at h
        rcases ih true c h with h' | h'
        · exact Or.inl h'
        · exact Or.inr ⟨List.mem_cons_of_mem _ h'.1, h'.2⟩
      · rw [if_neg hb] at h
        rcases List.mem_cons.mp h with h' | h'
        · exact Or.inl h'
        · rcases ih true c h' with h'' | h''
          · exact Or.inl h''
          · exact Or.inr ⟨List.mem_cons_of_mem _ h''.1, h''.2⟩
    · rw [Bool.not_eq_true] at hd
      simp only [squeezeAux, hd, Bool.false_eq_true, if_false] at h
      rcases List.mem_cons.mp h with h' | h'
      · exact Or.inr ⟨h' ▸ List.mem_cons_self d ds, h' ▸ hd⟩
      · rcases ih false c h' with h'' | h''
        · exact Or.inl h''
        · exact Or.inr ⟨List.mem_cons_of_mem _ h''.1, h''.2⟩

theorem squeezeAux_chain : ∀ (s : Str),
    (∀ b, List.Chain' (fun a d => ¬(isWS a = true ∧ isWS d = true)) (squeezeAux b s)) ∧
    (∀ c, (squeezeAux true s).head? = some c → isWS c = false) := by
  intro s
  induction s with
  | nil => exact ⟨fun b => by simp [squeezeAux], fun c h => by simp [squeezeAux] at h⟩
  | cons d ds ih =>
    by_cases hd : isWS d = true
    · refine ⟨fun b => ?_, fun c h => ?_⟩
      · by_cases hb : b
        · simp only [squeezeAux, hd, if_true, if_pos hb]
          exact (ih.1 true)
        · simp only [squeezeAux, hd, if_true, if_neg hb]
          rw [List.chain'_cons']
          refine ⟨fun y hy => ?_, ih.1 true⟩
          have := ih.2 y (by
            cases hh : (squeezeAux true ds).head? with
            | none => rw [hh] at hy; simp at hy
            | some z => rw [hh] at hy; simp at hy; subst hy; rfl)
          intro hcon
          rw [this] at hcon
          exact Bool.false_ne_true hcon.2
      · simp only [squeezeAux, hd, if_true, if_pos rfl] at h
        exact ih.2 c h
    · rw [Bool.not_eq_true] at hd
      refine ⟨fun b => ?_, fun c h => ?_⟩
      · simp only [squeezeAux, hd, Bool.false_eq_true, if_false]
        rw [List.chain'_cons']
        refine ⟨fun y hy => ?_, ih.1 false⟩
        intro hcon
        rw [hd] at hcon
        exact Bool.false_ne_true hcon.1
      · simp only [squeezeAux, hd, Bool.false_eq_true, if_false, List.head?_cons,
          Option.some.injEq] at h
        rw [← h]
        exact hd

theorem pythonStrip_subset (y : Str) (c : Char) (h : c ∈ pythonStrip y) : c ∈ y := by
  unfold pythonStrip at h
  rw [List.mem_reverse] at h
  have h1 := (List.dropWhile_sublist (l := (y.dropWhile isWS).reverse) isWS).subset h
  rw [List.mem_reverse] at h1
  exact (List.dropWhile_sublist (l := y) isWS).subset h1

theorem pythonStrip_head (y : Str) (c : Char) (h : (pythonStrip y).head? = some c) :
    isWS c = false := by
  unfold pythonStrip at h
  rw [List.head?_reverse] at h
  cases hw : ((y.dropWhile isWS).reverse.dropWhile isWS) with
  | nil => rw [hw] at h; simp at h
  | cons a as =>
    rw [hw] at h
    obtain ⟨t, ht⟩ := List.dropWhile_suffix (l := (y.dropWhile isWS).reverse) isWS
    rw [hw] at ht
    have hlast : (y.dropWhile isWS).head? = some c := by
      rw [← List.getLast?_reverse, ← ht, List.getLast?_append, h]
      rfl
    have hmt := List.head?_dropWhile_not isWS y
    rw [hlast] at hmt
    exact hmt

theorem pythonStrip_last (y : Str) (c : Char) (h : (pythonStrip y).getLast? = some c) :
    isWS c = false := by
  unfold pythonStrip at h
  rw [List.getLast?_reverse] at h
  have hmt := List.head?_dropWhile_not isWS ((y.dropWhile isWS).reverse)
  rw [h] at hmt
  exact hmt

theorem chain'_dropWhile {R : Char → Char → Prop} {y : Str} (p : Char → Bool)
    (h : List.Chain' R y) : List.Chain' R (y.dropWhile p) := by
  obtain ⟨t, ht⟩ := List.dropWhile_suffix (l := y) p
  rw [← ht] at h
  exact h.right_of_append

theorem chain'_reverse_symm {y : Str}
    (h : List.Chain' (fun a d => ¬(isWS a = true ∧ isWS d = true)) y) :
    List.Chain' (fun a d => ¬(isWS a = true ∧ isWS d = true)) y.reverse := by
  rw [List.chain'_reverse]
  exact h.imp (fun a d had => fun hcon => had ⟨hcon.2, hcon.1⟩)

theorem chain'_pythonStrip {y : Str}
    (h : List.Chain' (fun a d => ¬(isWS a = true ∧ isWS d = true)) y) :
    List.Chain' (fun a d => ¬(isWS a = true ∧ isWS d = true)) (pythonStrip y) := by
  unfold pythonStrip
  exact chain'_reverse_symm (chain'_dropWhile isWS (chain'_reverse_symm (chain'_dropWhile isWS h)))

theorem pythonStrip_fix (y : Str)
    (hh : ∀ c, y.head? = some c → isWS c = false)
    (hl : ∀ c, y.getLast? = some c → isWS c = false) :
    pythonStrip y = y := by
  cases y with
  | nil => rfl
  | cons a as =>
    unfold pythonStrip
    have ha : isWS a = false := hh a rfl
    rw [List.dropWhile_cons_of_neg (by simp [ha])]
    cases hr : (a :: as).reverse with
    | nil => exact absurd hr (by simp)
    | cons d ds =>
      have hd : isWS d = false := by
        apply hl d
        rw [← List.head?_reverse, hr]
        rfl
      rw [List.dropWhile_cons_of_neg (by simp [hd])]
      rw [← hr]
      exact List.reverse_reverse _

theorem squeeze_fix (y : Str)
    (hc : ∀ c ∈ y, isLowerAZ c = true ∨ c = ' ')
    (hch : List.Chain' (fun a d => ¬(isWS a = true ∧ isWS d = true)) y) :
    squeezeAux false y = y ∧
    ((∀ c, y.head? = some c → isWS c = false) → squeezeAux true y = y) := by
  induction y with
  | nil => exact ⟨rfl, fun _ => rfl⟩
  | cons d ds ih =>
    have hds : ∀ c ∈ ds, isLowerAZ c = true ∨ c = ' ' :=
      fun c hc' => hc c (List.mem_cons_of_mem _ hc')
    have hchds : List.Chain' (fun a d => ¬(isWS a = true ∧ isWS d = true)) ds :=
      (List.chain'_cons'.mp hch).2
    rcases hc d (List.mem_cons_self d ds) with hd | hd
    · have hdw : isWS d = false := isLowerAZ_not_ws d hd
      constructor
      · simp only [squeezeAux, hdw, Bool.false_eq_true, if_false]
        rw [(ih hds hchds).1]
      · intro _
        simp only [squeezeAux, hdw, Bool.false_eq_true, if_false]
        rw [(ih hds hchds).1]
    · subst hd
      have hdw : isWS ' ' = true := by decide
      have hhead : ∀ c, ds.head? = some c → isWS c = false := by
        intro c hc'
        have hrel := (List.chain'_cons'.mp hch).1 c (by rw [hc']; rfl)
        by_contra hcon
        rw [Bool.not_eq_false] at hcon
        exact hrel ⟨hdw, hcon⟩
      constructor
      · simp only [squeezeAux, hdw, if_true, Bool.false_eq_true, if_false]
        rw [(ih hds hchds).2 hhead]
      · intro hhd
        have := hhd ' ' rfl
        rw [hdw] at this
        exact absurd this (by simp)

theorem filter_azws_fix (y : Str) (hc : ∀ c ∈ y, isLowerAZ c = true ∨ c = ' ') :
    y.filter (fun c => isLowerAZ c || isWS c) = y := by
  rw [List.filter_eq_self]
  intro a ha
  rcases hc a ha with h | h
  · simp [h]
  · subst h
    simp [isWS]

theorem lower_fix (y : Str) (hc : ∀ c ∈ y, isLowerAZ c = true ∨ c = ' ') :
    lowerStr y = y := by
  unfold lowerStr
  induction y with
  | nil => rfl
  | cons d ds ih =>
    have hd : asciiLower d = d := by
      rcases hc d (List.mem_cons_self d ds) with h | h
      · unfold asciiLower
        rw [isLowerAZ_not_upper d h]
        simp
      · subst h
        rfl
    simp only [List.map_cons, hd, List.cons.injEq, true_and]
    exact ih (fun c h => hc c (List.mem_cons_of_mem _ h))

theorem unidec_fix (y : Str) (hc : ∀ c ∈ y, isLowerAZ c = true ∨ c = ' ') :
    unidec y = y := by
  unfold unidec
  rw [List.filter_eq_self]
  intro a ha
  rcases hc a ha with h | h
  · simp [isLowerAZ_toNat_lt a h]
  · subst h
    decide

theorem normalize_chars (x : Str) :
    ∀ c ∈ normalize_name x, isLowerAZ c = true ∨ c = ' ' := by
  intro c hcm
  unfold normalize_name at hcm
  have h1 := pythonStrip_subset _ c hcm
  unfold squeezeWS at h1
  rcases squeezeAux_chars _ false c h1 with h | h
  · exact Or.inr h
  · have h2 := List.mem_filter.mp h.1
    rcases Bool.or_eq_true _ _ |>.mp h2.2 with h3 | h3
    · exact Or.inl h3
    · rw [h.2] at h3
      exact absurd h3 (by simp)

theorem normalize_chain (x : Str) :
    List.Chain' (fun a d => ¬(isWS a = true ∧ isWS d = true)) (normalize_name x) := by
  unfold normalize_name
  exact chain'_pythonStrip ((squeezeAux_chain _).1 false)

/-! ### Honorific-removal fixpoint (C2) -/

theorem titles_ne_nil_all_az : ∀ t ∈ titles, t ≠ [] ∧ t.all isLowerAZ = true := by
  decide

theorem nil_not_mem_titles : ([] : Str) ∉ titles := by
  decide

theorem matchTitleAt_eq_none (s : Str)
    (hchars : ∀ c ∈ s, isLowerAZ c = true ∨ c = ' ')
    (htok : s.takeWhile (fun c => !isWS c) ∉ titles) :
    matchTitleAt s = none := by
  unfold matchTitleAt
  suffices h : titles.findSome? (fun t =>
      if t.isPrefixOf s && (match s.drop t.length with
                            | [] => true
                            | c :: _ => !isWordChar c) then
        some t.length
      else none) = none by
    rw [h]
  rw [List.findSome?_eq_none_iff]
  intro t ht
  by_cases hcond : (t.isPrefixOf s && (match s.drop t.length with
                                       | [] => true
                                       | c :: _ => !isWordChar c)) = true
  · exfalso
    obtain ⟨hpre, hbd⟩ := Bool.and_eq_true _ _ |>.mp hcond
    have hprefix := List.isPrefixOf_iff_prefix.mp hpre
    obtain ⟨u, hu⟩ := hprefix
    have htne := titles_ne_nil_all_az t ht
    have htw : ∀ a ∈ t, (fun c => !isWS c) a = true := by
      intro a ha
      have := List.all_eq_true.mp htne.2 a ha
      simp [isLowerAZ_not_ws a this]
    have hdrop : s.drop t.length = u := by
      rw [← hu, List.drop_left]
    rw [hdrop] at hbd
    have htk : s.takeWhile (fun c => !isWS c) = t ++ u.takeWhile (fun c => !isWS c) := by
      rw [← hu, List.takeWhile_append_of_pos htw]
    cases u with
    | nil =>
      rw [htk] at htok
      simp only [List.takeWhile_nil, List.append_nil] at htok
      exact htok ht
    | cons v vs =>
      have hv : v ∈ s := by
        rw [← hu]
        exact List.mem_append_right t (List.mem_cons_self v vs)
      dsimp only at hbd
      rcases hchars v hv with hvaz | hvsp
      · rw [isLowerAZ_word v hvaz] at hbd
        exact absurd hbd (by simp)
      · subst hvsp
        rw [List.takeWhile_cons_of_neg (by decide)] at htk
        rw [htk, List.append_nil] at htok
        exact htok ht
  · simp only [hcond, Bool.false_eq_true, if_false]

theorem stripTitlesAux_fix : ∀ (n : Nat) (b : Bool) (s : Str), s.length ≤ n →
    (∀ c ∈ s, isLowerAZ c = true ∨ c = ' ') →
    (∀ w ∈ splitWS (if b then s else s.dropWhile (fun c => !isWS c)), w ∉ titles) →
    stripTitlesAux n b s = s := by
  intro n
  induction n with
  | zero => intro b s _ _ _; rfl
  | succ n ih =>
    intro b s hlen hchars htok
    match s with
    | [] => rfl
    | c :: cs =>
      simp only [List.length_cons, Nat.succ_le_succ_iff] at hlen
      have hchcs : ∀ d ∈ cs, isLowerAZ d = true ∨ d = ' ' :=
        fun d hd => hchars d (List.mem_cons_of_mem _ hd)
      rcases hchars c (List.mem_cons_self c cs) with hcaz | hcsp
      · have hcw : isWS c = false := isLowerAZ_not_ws c hcaz
        have hword : isWordChar c = true := isLowerAZ_word c hcaz
        have htokcs : ∀ w ∈ splitWS (cs.dropWhile (fun d => !isWS d)), w ∉ titles := by
          intro w hw
          cases b with
          | true =>
            apply htok w
            rw [if_pos rfl, splitWS_cons_nws c cs hcw]
            exact List.mem_cons_of_mem _ hw
          | false =>
            apply htok w
            simp only [Bool.false_eq_true, if_false]
            rw [List.dropWhile_cons_of_pos (by simp [hcw])]
            exact hw
        cases b with
        | true =>
          have hmt : matchTitleAt (c :: cs) = none := by
            apply matchTitleAt_eq_none _ hchars
            rw [List.takeWhile_cons_of_pos (by simp [hcw])]
            apply htok
            rw [if_pos rfl, splitWS_cons_nws c cs hcw]
            exact List.mem_cons_self _ _
          simp only [stripTitlesAux, if_pos rfl, hmt]
          simp only [hword, Bool.not_true]
          rw [ih false cs hlen hchcs (by
            simp only [Bool.false_eq_true, if_false]
            exact htokcs)]
          simp
        | false =>
          simp only [stripTitlesAux, Bool.false_eq_true, if_false]
          simp only [hword, Bool.not_true]
          rw [ih false cs hlen hchcs (by
            simp only [Bool.false_eq_true, if_false]
            exact htokcs)]
      · subst hcsp
        have hcw : isWS ' ' = true := by decide
        have htokcs : ∀ w ∈ splitWS cs, w ∉ titles := by
          intro w hw
          cases b with
          | true =>
            apply htok w
            rw [if_pos rfl, splitWS_cons_ws ' ' cs hcw]
            exact hw
          | false =>
            apply htok w
            simp only [Bool.false_eq_true, if_false]
            rw [List.dropWhile_cons_of_neg (by simp [hcw]), splitWS_cons_ws ' ' cs hcw]
            exact hw
        cases b with
        | true =>
          have hmt : matchTitleAt (' ' :: cs) = none := by
            apply matchTitleAt_eq_none _ hchars
            rw [List.takeWhile_cons_of_neg (by decide)]
            exact nil_not_mem_titles
          simp only [stripTitlesAux, if_pos rfl, hmt]
          have hw : isWordChar ' ' = false := by decide
          simp only [hw, Bool.not_false]
          rw [ih true cs hlen hchcs (by
            rw [if_pos rfl]
            exact htokcs)]
          simp
        | false =>
          simp only [stripTitlesAux, Bool.false_eq_true, if_false]
          have hw : isWordChar ' ' = false := by decide
          simp only [hw, Bool.not_false]
          rw [ih true cs hlen hchcs (by
            rw [if_pos rfl]
            exact htokcs)]

theorem stripTitles_fix (y : Str)
    (hchars : ∀ c ∈ y, isLowerAZ c = true ∨ c = ' ')
    (htok : ∀ w ∈ splitWS y, w ∉ titles) :
    stripTitles y = y := by
  unfold stripTitles
  exact stripTitlesAux_fix y.length true y le_rfl hchars (by rw [if_pos rfl]; exact htok)

theorem normalize_head_not_ws (x : Str) (c : Char)
    (h : (normalize_name x).head? = some c) : isWS c = false := by
  unfold normalize_name at h
  exact pythonStrip_head _ c h

theorem normalize_last_not_ws (x : Str) (c : Char)
    (h : (normalize_name x).getLast? = some c) : isWS c = false := by
  unfold normalize_name at h
  exact pythonStrip_last _ c h

theorem normalize_name_fix_general (y : Str)
    (hchars : ∀ c ∈ y, isLowerAZ c = true ∨ c = ' ')
    (hchain : List.Chain' (fun a d => ¬(isWS a = true ∧ isWS d = true)) y)
    (hh : ∀ c, y.head? = some c → isWS c = false)
    (hl : ∀ c, y.getLast? = some c → isWS c = false)
    (htok : ∀ w ∈ splitWS y, w ∉ titles) :
    normalize_name y = y := by
  unfold normalize_name
  rw [pythonStrip_fix y hh hl]
  dsimp only
  rw [unidec_fix y hchars]
  rw [lower_fix y hchars]
  rw [stripTitles_fix y hchars htok]
  rw [filter_azws_fix y hchars]
  unfold squeezeWS
  rw [(squeeze_fix y hchars hchain).1]
  exact pythonStrip_fix y hh hl

/-- Claim C2 counterexample: `normalize` is not idempotent — on input "1dr"
the first pass removes the digit and produces "dr", which the second pass then
removes as an honorific token, yielding "".  The digit shields "dr" from the
word-boundary-anchored honorific removal of the first pass, but the
letters-only filter then creates a fresh honorific token. -/
theorem normalize_not_idempotent :
    normalize_name (normalize_name (S "1dr")) ≠ normalize_name (S "1dr") := by
  decide

/-- Claim C2 (amended): `normalize` is idempotent on every input whose
normalized form contains no honorific/suffix token as a whole word:
`normalize(normalize(x)) == normalize(x)` whenever no whitespace-separated
token of `normalize(x)` is one of mr/mrs/ms/miss/dr/prof/sir/dame/jr/sr/ii/
iii/iv/v/phd/md/dds/dvm.  (The counterexample "1dr" shows the restriction is
necessary: removing non-letter characters can create a new honorific token.) -/
theorem normalize_idempotent_no_honorific (x : Str)
    (htok : ∀ w ∈ splitWS (normalize_name x), w ∉ titles) :
    normalize_name (normalize_name x) = normalize_name x :=
  normalize_name_fix_general (normalize_name x) (normalize_chars x)
    (normalize_chain x) (normalize_head_not_ws x) (normalize_last_not_ws x) htok

/-- Claim C2 (amended) witness: the amended idempotence applied at
"Jane OConnor", whose normalization "jane oconnor" contains no honorific
token. -/
theorem normalize_idempotent_no_honorific_witness :
    (∀ w ∈ splitWS (normalize_name (S "Jane OConnor")), w ∉ titles) ∧
    normalize_name (normalize_name (S "Jane OConnor")) =
      normalize_name (S "Jane OConnor") :=
  ⟨by decide, normalize_idempotent_no_honorific _ (by decide)⟩
